import Mathlib

/-!
Verification development for the neuromancer repository.

The development shallowly embeds the parts of the code that the claims
concern:

* `src/neuromancer/problem.py` — the `Problem` graph executor
  (`step`, `calculate_loss`, `forward`, `_check_name_collision_dicts`),
  with the `Objective`/`Loss` call semantics taken from
  `src/scratch/loops.py` (`Objective.__call__` returns
  `weight * loss(*[variables[k] for k in variable_names])`).
* `src/neuromancer/dataset.py` — `batch_tensor`, `SequenceDataset`
  (`__init__`, `__len__`, `__getitem__`, `get_full_sequence`) and
  `split_data`.
* `src/deepmpc/dataset.py` — `batch_mh_data`, `batch_data`,
  `Dataset.normalize` and `min_max_denorm`.

Python dictionaries are modelled as insertion-ordered association lists;
tensors are modelled as lists (a 2-D tensor is a list of rows, each row a
list of `Int` scalars; normalization works over `ℚ` so that the numpy
floating arithmetic is modelled exactly).  Scalar tensor values flowing
through the `Problem` dictionaries are `TVal.num : Int`; the reserved
string-valued "name" entry is `TVal.str`.
-/

/-- Entry order preserving association-list lookup: Python `d[k]` returns
the value of the first matching key (keys are unique in a real `dict`). -/
def alLookup {α : Type} (k : String) : List (String × α) → Option α
  | [] => none
  | (k1, v) :: d => if k1 = k then some v else alLookup k d

/-- The keys of a dictionary, in insertion order (`d.keys()`). -/
def alKeys {α : Type} (d : List (String × α)) : List String :=
  d.map Prod.fst

/-- Python `k in d`. -/
def alMem {α : Type} (k : String) (d : List (String × α)) : Bool :=
  d.any (fun kv => kv.1 = k)

/-- Python dict merge `\x7b**d, **e\x7d`: keys of `d` keep their position
(with values overridden by `e` where both define them), then the keys of
`e` not already present are appended in order. -/
def alUpdate {α : Type} (d e : List (String × α)) : List (String × α) :=
  d.map (fun kv =>
    match alLookup kv.1 e with
    | some v => (kv.1, v)
    | none => kv)
  ++ e.filter (fun kv => !(alMem kv.1 d))

/-- Python `d[k] = v`: replace the value in place if `k` is present,
otherwise append the new entry. -/
def alSet {α : Type} (d : List (String × α)) (k : String) (v : α) :
    List (String × α) :=
  if alMem k d then
    d.map (fun kv => if kv.1 = k then (k, v) else kv)
  else
    d ++ [(k, v)]

/-- Values stored in the named-tensor dictionaries of a `Problem`: scalar
tensors are `num`, the reserved batch tag under the "name" key is `str`. -/
inductive TVal where
  | num : Int → TVal
  | str : String → TVal
deriving DecidableEq

/-- How a value renders inside the f-string `f'...'` of
`Problem.forward` (the "name" entry is a string in practice). -/
def TVal.render : TVal → String
  | .num n => toString n
  | .str s => s

/-- A named-tensor dictionary flowing through the `Problem` graph. -/
abbrev NTDict := List (String × TVal)

/-- A loss/constraint term, following the `Loss`/`Objective` interface:
an ordered list of required keys, a reducer over that many positional
tensor arguments returning a scalar, a weight and a name
(`src/scratch/loops.py` lines 16-35, spec section 6). -/
structure LossTerm where
  name : String
  weight : Int
  variable_names : List String
  loss : List TVal → Int

/-- Look up every required key in order; `none` models the `KeyError`
Python raises on the first missing key. -/
def lookupAll (ks : List String) (d : NTDict) : Option (List TVal) :=
  match ks with
  | [] => some []
  | k :: ks =>
    match alLookup k d with
    | some v => (lookupAll ks d).map (fun vs => v :: vs)
    | none => none

/-- `Objective.__call__` from `src/scratch/loops.py` lines 29-35: the
weighted scalar `self.weight * self.loss(*[variables[k] for k in
self.variable_names])`; a missing key is a fatal `KeyError`. -/
def LossTerm.eval (t : LossTerm) (vars : NTDict) : Except String Int :=
  match lookupAll t.variable_names vars with
  | some vs => .ok (t.weight * t.loss vs)
  | none => .error ("KeyError in term " ++ t.name)

/-- A component of the graph: a named map from dictionary to dictionary.
The `isinstance(output_dict, torch.Tensor)` branch of the Python code is
subsumed: a tensor-returning component behaves as one returning the
singleton dictionary under its own name. -/
structure Component where
  name : String
  eval : NTDict → NTDict

/-- `Problem.__init__` state: ordered objectives, constraints and
components (`src/neuromancer/problem.py` lines 14-33). -/
structure Problem where
  objectives : List LossTerm
  constraints : List LossTerm
  components : List Component

/-- `Problem._check_name_collision_dicts` (`src/neuromancer/problem.py`
lines 41-45): `set(output.keys()) - set(input.keys()) ==
set(output.keys())` asserts that no output key is already present. -/
def checkNameCollision {α : Type} (input_dict output_dict : List (String × α)) :
    Except String Unit :=
  if output_dict.all (fun kv => !(alMem kv.1 input_dict)) then
    .ok ()
  else
    .error "Name collision in input and output dictionaries"

/-- One of the two identical loops of `Problem.calculate_loss`
(`src/neuromancer/problem.py` lines 55-69): evaluate the term, wrap the
scalar as a singleton dictionary under the term's name, assert no key
collision, merge, and add the named value to the running total. -/
def runTerms : List LossTerm → NTDict → Int → Except String (NTDict × Int)
  | [], d, loss => .ok (d, loss)
  | t :: ts, d, loss =>
    match t.eval d with
    | .error e => .error e
    | .ok v =>
      match checkNameCollision d [(t.name, TVal.num v)] with
      | .error e => .error e
      | .ok _ => runTerms ts (alUpdate d [(t.name, TVal.num v)]) (loss + v)

/-- `Problem.calculate_loss` (`src/neuromancer/problem.py` lines 47-71):
run the objective loop from `loss = 0.0`, continue with the constraint
loop, then `input_dict['loss'] = loss` and return the dictionary. -/
def Problem.calculate_loss (p : Problem) (input_dict : NTDict) :
    Except String NTDict :=
  match runTerms p.objectives input_dict 0 with
  | .error e => .error e
  | .ok (d1, l1) =>
    match runTerms p.constraints d1 l1 with
    | .error e => .error e
    | .ok (d2, l2) => .ok (alSet d2 "loss" (TVal.num l2))

/-- The loop body of `Problem.step` (`src/neuromancer/problem.py` lines
78-85): invoke each component on the accumulated dictionary, assert no
output key collides, merge the outputs in. -/
def stepAux : List Component → NTDict → Except String NTDict
  | [], d => .ok d
  | c :: cs, d =>
    match checkNameCollision d (c.eval d) with
    | .error e => .error e
    | .ok _ => stepAux cs (alUpdate d (c.eval d))

/-- `Problem.step`. -/
def Problem.step (p : Problem) (input_dict : NTDict) : Except String NTDict :=
  stepAux p.components input_dict

/-- `Problem.forward` (`src/neuromancer/problem.py` lines 73-76):
`step`, then `calculate_loss`, then prefix every key with
`f'\x7bdata["name"]\x7d_'`; a missing "name" entry is a `KeyError`. -/
def Problem.forward (p : Problem) (data : NTDict) : Except String NTDict :=
  match p.step data with
  | .error e => .error e
  | .ok od =>
    match p.calculate_loss od with
    | .error e => .error e
    | .ok od2 =>
      match alLookup "name" data with
      | none => .error "KeyError: name"
      | some nm => .ok (od2.map (fun kv => (nm.render ++ "_" ++ kv.1, kv.2)))

/-- Written from the spec's description of `calculate_loss` (spec section
4.4): each term is evaluated, in declared order, against the dictionary
accumulated by merging every earlier term's named scalar result, and the
list of the weighted term values is returned (a later term can read an
earlier term's value by name). -/
def specTermVals : List LossTerm → NTDict → Except String (List Int)
  | [], _ => .ok []
  | t :: ts, d =>
    match t.eval d with
    | .error e => .error e
    | .ok v =>
      match specTermVals ts (d ++ [(t.name, TVal.num v)]) with
      | .error e => .error e
      | .ok vs => .ok (v :: vs)

/-- The dictionary entries contributed by a list of terms with the given
values: each term's name mapped to its weighted scalar result. -/
def termEntries : List LossTerm → List Int → NTDict
  | t :: ts, v :: vs => (t.name, TVal.num v) :: termEntries ts vs
  | _, _ => []

/-- The output dictionary each component produces when the components run
in declared order over the accumulating dictionary. -/
def stepOutputs : List Component → NTDict → List NTDict
  | [], _ => []
  | c :: cs, d => c.eval d :: stepOutputs cs (alUpdate d (c.eval d))

/-- Whether some component's output key already exists in the dictionary
accumulated when that component runs (the condition under which
`Problem.step` aborts). -/
def stepCollides : List Component → NTDict → Bool
  | [], _ => false
  | c :: cs, d =>
    if (c.eval d).all (fun kv => !(alMem kv.1 d)) then
      stepCollides cs (alUpdate d (c.eval d))
    else
      true

/-- Written from the spec's description of `step` (spec section 4.4): for
each component in declared order, invoke it on the current dictionary and
merge its outputs in. -/
def stepAccum : List Component → NTDict → NTDict
  | [], d => d
  | c :: cs, d => stepAccum cs (alUpdate d (c.eval d))

/-- Scalar carried by a `TVal` (a string renders as 0; loss reducers in
practice only ever receive scalar tensors). -/
def TVal.asNum : TVal → Int
  | .num n => n
  | .str _ => 0

/-- First positional argument of a loss reducer, as a scalar. -/
def tvHead (vs : List TVal) : Int :=
  (vs.headD (TVal.num 0)).asNum

/-!
### Windowed sequence datasets

2-D tensors/arrays of shape (time, features) are lists of rows; a batched
window tensor is a list of windows, each a list of rows.  `batch_tensor`
already incorporates the `.permute(0, 2, 1)` applied right after it in
`SequenceDataset.__init__` (`x.unfold(0, steps, stride)` yields
(windows, features, steps); the permute puts each window back in
(steps, features) row form, which is how windows are modelled here).
-/

/-- A half-open column range `slice(i, i + w, 1)`. -/
abbrev ColSlice := Nat × Nat

/-- Extract column range `ab` from one row. -/
def sliceRow (ab : ColSlice) (row : List Int) : List Int :=
  (row.drop ab.1).take (ab.2 - ab.1)

/-- Extract column range `ab` from every row of a matrix. -/
def sliceMat (ab : ColSlice) (m : List (List Int)) : List (List Int) :=
  m.map (sliceRow ab)

/-- A named collection of 2-D arrays (the `data` argument of
`SequenceDataset` and of `split_data`). -/
abbrev DataMap := List (String × List (List Int))

/-- The feature width of a 2-D array (`v.shape[1]`; numpy/torch arrays
are rectangular, which theorems assume through `RectData`). -/
def matWidth (v : List (List Int)) : Nat :=
  (v.headD []).length

/-- The `_vslices` loop of `SequenceDataset.__init__`
(`src/neuromancer/dataset.py` lines 75-79): consecutive column ranges in
variable declaration order. -/
def mkVSlices : DataMap → Nat → List (String × ColSlice)
  | [], _ => []
  | (k, v) :: rest, i => (k, (i, i + matWidth v)) :: mkVSlices rest (i + matWidth v)

/-- Row `t` of a 2-D array (in-range by hypothesis wherever it matters). -/
def rowAt (v : List (List Int)) (t : Nat) : List Int :=
  v.getD t []

/-- Row `t` of `torch.cat([...], dim=1)`: the rows of all variables at
time `t`, concatenated in declaration order. -/
def fullRow (data : DataMap) (t : Nat) : List Int :=
  (data.map (fun kv => rowAt kv.2 t)).flatten

/-- `torch.cat([torch.tensor(v) for v in data.values()], dim=1)`. -/
def catData (data : DataMap) (nsim : Nat) : List (List Int) :=
  (List.range nsim).map (fullRow data)

/-- `batch_tensor` (`src/neuromancer/dataset.py` lines 38-39):
`x.unfold(0, steps, 1 if mh else steps)` produces
`(len(x) - steps) // stride + 1` windows, window `i` starting at row
`i * stride`; `unfold` raises a `RuntimeError` when the window size
exceeds the dimension size (and requires a positive size/stride).  The
`.permute(0, 2, 1)` of `__init__` is folded in, so each window is its
list of `steps` rows. -/
def batch_tensor (x : List (List Int)) (steps : Nat) (mh : Bool) :
    Except String (List (List (List Int))) :=
  let stride := if mh then 1 else steps
  if 0 < steps ∧ steps ≤ x.length then
    .ok ((List.range ((x.length - steps) / stride + 1)).map
      (fun i => (x.drop (i * stride)).take steps))
  else
    .error "RuntimeError: unfold size exceeds dimension size"

/-- The state built by `SequenceDataset.__init__`
(`src/neuromancer/dataset.py` lines 51-93).  The `dims` bookkeeping
dictionary, used only for reporting, is omitted. -/
structure SeqDataset where
  vkeys : List String
  vslices : List (String × ColSlice)
  full_data : List (List Int)
  nsteps : Nat
  nsim : Nat
  moving_horizon : Bool
  batched_data : List (List (List Int))

/-- `SequenceDataset.__init__`: concatenate the variables column-wise
(`torch.cat` fails on an empty dict or mismatched lengths), record the
column slices, then window with `batch_tensor`.  There is no horizon
validity check: the only failure for large `nsteps` comes from `unfold`
itself, inside the windowing. -/
def mkSeqDataset (data : DataMap) (nsteps : Nat) (mh : Bool) :
    Except String SeqDataset :=
  match data with
  | [] => .error "RuntimeError: torch.cat expects a non-empty list"
  | (_, v0) :: rest =>
    if rest.all (fun kv => kv.2.length = v0.length) then
      let full := catData data v0.length
      match batch_tensor full nsteps mh with
      | .error e => .error e
      | .ok b =>
        .ok { vkeys := data.map Prod.fst,
              vslices := mkVSlices data 0,
              full_data := full,
              nsteps := nsteps,
              nsim := full.length,
              moving_horizon := mh,
              batched_data := b }
    else
      .error "RuntimeError: torch.cat sizes do not match"

/-- `SequenceDataset.__len__` (`src/neuromancer/dataset.py` lines 95-96):
`len(self.batched_data) - 1`. -/
def SeqDataset.len (ds : SeqDataset) : Nat :=
  ds.batched_data.length - 1

/-- The column slice recorded for variable `k` (`self._vslices[k]`). -/
def SeqDataset.slOf (ds : SeqDataset) (k : String) : ColSlice :=
  (alLookup k ds.vslices).getD (0, 0)

/-- `SequenceDataset.__getitem__` (`src/neuromancer/dataset.py` lines
98-108): variable `k` of item `i` is window `i` of the batched data under
`k + "p"` and window `i + 1` under `k + "f"`, column-sliced to the
variable.  Out-of-range `i` is an `IndexError` in Python; theorems only
evaluate it at valid indices. -/
def SeqDataset.getitem (ds : SeqDataset) (i : Nat) : DataMap :=
  (ds.vkeys.map (fun k =>
    (k ++ "p", sliceMat (ds.slOf k) (ds.batched_data.getD i []))))
  ++ (ds.vkeys.map (fun k =>
    (k ++ "f", sliceMat (ds.slOf k) (ds.batched_data.getD (i + 1) []))))

/-- `SequenceDataset.get_full_sequence` (`src/neuromancer/dataset.py`
lines 110-121): `full_data[:-nsteps]` under `k + "p"` and
`full_data[nsteps:]` under `k + "f"` for every variable.  The
`.unsqueeze(1)` singleton batch axis and the string-valued
`"name": "loop_" + name` entry are omitted (the claims concern the
per-variable arrays). -/
def SeqDataset.get_full_sequence (ds : SeqDataset) : DataMap :=
  (ds.vkeys.map (fun k =>
    (k ++ "p", sliceMat (ds.slOf k) (ds.full_data.take (ds.nsim - ds.nsteps)))))
  ++ (ds.vkeys.map (fun k =>
    (k ++ "f", sliceMat (ds.slOf k) (ds.full_data.drop ds.nsteps))))

/-- Well-formedness of a data mapping as numpy/torch guarantees it: every
variable holds `nsim` rows and is rectangular. -/
def RectData (data : DataMap) (nsim : Nat) : Prop :=
  ∀ kv ∈ data, kv.2.length = nsim ∧ ∀ r ∈ kv.2, r.length = matWidth kv.2

/-!
### deepmpc batching

`src/deepmpc/dataset.py`.  Both functions build an array of shape
(nchunks, nsteps, features) and end with `transpose(1, 0, 2)` to
(nsteps, nsamples, features).  On a non-empty chunk list that transpose
is a pure axis permutation changing neither the number of windows nor
their contents, so windows are modelled in (nsteps, features) row form;
but when `batch_mh_data`'s chunk list is empty (`nsteps ≥ len(data)`),
`np.asarray([])` is a 1-D empty array and `transpose(1, 0, 2)` raises
`ValueError: axes don't match array`, so that function is fallible.
-/

/-- `batch_mh_data` (`src/deepmpc/dataset.py` lines 29-39):
`end_step = data.shape[0] - nsteps` and a window `data[k:k+nsteps]` for
`k in range(0, end_step)` — note that `range` stops before `end_step`,
so the window starting at `end_step` itself is never produced.  When
`end_step <= 0` (nsteps at least the series length) the comprehension is
empty and the final `transpose(1, 0, 2)` raises a `ValueError` on the
1-D empty `np.asarray([])` instead of returning zero windows. -/
def batch_mh_data (data : List (List Int)) (nsteps : Nat) :
    Except String (List (List (List Int))) :=
  if data.length ≤ nsteps then
    .error "ValueError: axes do not match array"
  else
    .ok ((List.range (data.length - nsteps)).map
      (fun k => (data.drop k).take nsteps))

/-- `batch_data` (`src/deepmpc/dataset.py` lines 54-64): drop the
`data.shape[0] % nsteps` leftover rows and split the rest into
`data.shape[0] // nsteps` chunks of `nsteps` rows.  For
`1 <= nsteps <= len(data)` there is at least one full chunk, `np.split`
and the transpose succeed, and the model is total; `nsteps > len(data)`
(where `np.split` into zero sections raises) is outside every theorem's
domain. -/
def batch_data (data : List (List Int)) (nsteps : Nat) :
    List (List (List Int)) :=
  (List.range (data.length / nsteps)).map
    (fun k => ((data.take (data.length - data.length % nsteps)).drop
      (k * nsteps)).take nsteps)

/-!
### Train/dev/test split
-/

/-- A Python `slice(start, stop)` object (as built inside `split_data`;
the step defaults to `None`). -/
structure PySlice where
  start : Int
  stop : Int

/-- Subscripting a slice object, as `split_data` does with
`train_offs[1]`: Python `slice` objects are not subscriptable, so this
always raises `TypeError`. -/
def PySlice.getItem (_s : PySlice) (_i : Nat) : Except String Int :=
  .error "TypeError: 'slice' object is not subscriptable"

/-- Python `lst[i]` on a list of ints (an `IndexError` when out of
range). -/
def listGetItem (ratio : List Int) (i : Nat) : Except String Int :=
  match ratio.get? i with
  | some v => .ok v
  | none => .error "IndexError: list index out of range"

/-- Application of a nonnegative `slice(a, b)` to the row list of a 2-D
array: rows `a` to `b - 1`. -/
def applySlice (s : PySlice) (v : List (List Int)) : List (List Int) :=
  (v.drop s.start.toNat).take (s.stop.toNat - s.start.toNat)

/-- `split_data` (`src/neuromancer/dataset.py` lines 146-164).  With
`split_ratio=None` the series is cut into contiguous thirds.  With a
ratio list the code computes `dev_offs` from `train_offs[1]`, which
subscripts a `slice` object and therefore raises `TypeError` before any
split is returned (evaluation order: `train_offs` is built first, from
`split_ratio[0]`, then `train_offs[1]` raises; `int(split_ratio[0] /
100)` truncates the true division, which Int division models for the
nonnegative percentages in use). -/
def split_data (data : DataMap) (split_ratio : Option (List Int)) :
    Except String (DataMap × DataMap × DataMap) :=
  match data.map (fun kv => kv.2.length) with
  | [] => .error "ValueError: min() arg is an empty sequence"
  | n :: ns =>
    let nsim : Nat := ns.foldl min n
    match split_ratio with
    | none =>
      let split_len : Nat := nsim / 3
      let train_offs : PySlice := ⟨0, split_len⟩
      let dev_offs : PySlice := ⟨split_len, split_len * 2⟩
      let test_offs : PySlice := ⟨split_len * 2, nsim⟩
      .ok (data.map (fun kv => (kv.1, applySlice train_offs kv.2)),
           data.map (fun kv => (kv.1, applySlice dev_offs kv.2)),
           data.map (fun kv => (kv.1, applySlice test_offs kv.2)))
    | some ratio =>
      match listGetItem ratio 0 with
      | .error e => .error e
      | .ok r0 =>
        let train_offs : PySlice := ⟨0, (r0 / 100) * nsim⟩
        match train_offs.getItem 1 with
        | .error e => .error e
        | .ok t1 =>
          match train_offs.getItem 1 with
          | .error e => .error e
          | .ok t1b =>
            match listGetItem ratio 1 with
            | .error e => .error e
            | .ok r1 =>
              let dev_offs : PySlice := ⟨t1, t1b + (r1 / 100) * nsim⟩
              match dev_offs.getItem 1 with
              | .error e => .error e
              | .ok d1 =>
                let test_offs : PySlice := ⟨d1, nsim⟩
                .ok (data.map (fun kv => (kv.1, applySlice train_offs kv.2)),
                     data.map (fun kv => (kv.1, applySlice dev_offs kv.2)),
                     data.map (fun kv => (kv.1, applySlice test_offs kv.2)))

/-!
### Min-max normalization (deepmpc)

`Dataset.normalize` works column-independently over the sample axis, so a
2-D array is modelled as the list of its columns; each column is a list
of exact rationals, which models IEEE arithmetic without rounding.
`np.nan_to_num` maps the `0/0 = NaN` of a zero-range column to `0`; `ℚ`
division by zero is already `0`, and within a column the denominator
`Mmax - Mmin` vanishes exactly when every numerator `x - Mmin` does, so
total division models `nan_to_num` faithfully on every reachable input
(no `Inf` can arise).
-/

/-- `M.min(axis=0)` for one column (numpy errors on an empty array;
theorems assume nonempty columns). -/
def colMin (m : List ℚ) : ℚ :=
  match m with
  | [] => 0
  | x :: xs => xs.foldl min x

/-- `M.max(axis=0)` for one column. -/
def colMax (m : List ℚ) : ℚ :=
  match m with
  | [] => 0
  | x :: xs => xs.foldl max x

/-- `Dataset.normalize` (`src/deepmpc/dataset.py` lines 188-198) on one
column, with min/max inferred from the data:
`np.nan_to_num((M - Mmin) / (Mmax - Mmin))` plus the stored min and
max. -/
def normalizeCol (m : List ℚ) : List ℚ × ℚ × ℚ :=
  let mn := colMin m
  let mx := colMax m
  (m.map (fun x => (x - mn) / (mx - mn)), mn, mx)

/-- `min_max_denorm` (`src/deepmpc/dataset.py` lines 16-25) on one
column: `np.nan_to_num(M * (Mmax - Mmin) + Mmin)`. -/
def min_max_denorm (m : List ℚ) (mn mx : ℚ) : List ℚ :=
  m.map (fun x => x * (mx - mn) + mn)

/-- `Dataset.normalize` over a whole 2-D array, presented as its list of
columns. -/
def normalizeMat (cols : List (List ℚ)) : List (List ℚ × ℚ × ℚ) :=
  cols.map normalizeCol

/-- Denormalize a whole 2-D array with its stored per-column min/max. -/
def denormMat (cols : List (List ℚ × ℚ × ℚ)) : List (List ℚ) :=
  cols.map (fun c => min_max_denorm c.1 c.2.1 c.2.2)

/-!
### Concrete inputs used by witnesses and counterexamples
-/

/-- A small concrete `Problem`: two chained components, two objectives
and one constraint, where later terms read earlier terms' outputs by
name. -/
def exProblem : Problem :=
  { objectives :=
      [ { name := "ref_loss", weight := 2, variable_names := ["Y_pred"],
          loss := tvHead },
        { name := "reg", weight := 1, variable_names := ["ref_loss"],
          loss := fun vs => 3 * tvHead vs } ],
    constraints :=
      [ { name := "bound", weight := 1, variable_names := ["reg"],
          loss := tvHead } ],
    components :=
      [ { name := "estim", eval := fun _ => [("x0_estim", TVal.num 7)] },
        { name := "dynamics", eval := fun d =>
            [("Y_pred", TVal.num (((alLookup "x0_estim" d).getD
              (TVal.num 0)).asNum + 1))] } ] }

/-- A concrete input batch for `exProblem`. -/
def exData : NTDict :=
  [("name", TVal.str "train"), ("Yf", TVal.num 5)]

/-- A concrete input for `calculate_loss` alone. -/
def exDictLoss : NTDict :=
  [("Y_pred", TVal.num 8)]

/-- The dictionary `exProblem.calculate_loss exDictLoss` produces. -/
def exLossResult : NTDict :=
  [("Y_pred", TVal.num 8), ("ref_loss", TVal.num 16),
   ("reg", TVal.num 48), ("bound", TVal.num 48), ("loss", TVal.num 112)]

/-- The dictionary `exProblem.forward exData` produces. -/
def exForwardResult : NTDict :=
  [("train_name", TVal.str "train"), ("train_Yf", TVal.num 5),
   ("train_x0_estim", TVal.num 7), ("train_Y_pred", TVal.num 8),
   ("train_ref_loss", TVal.num 16), ("train_reg", TVal.num 48),
   ("train_bound", TVal.num 48), ("train_loss", TVal.num 112)]

/-- The single-variable series 0..11 of the spec's end-to-end scenario. -/
def exY12 : List (List Int) :=
  [[0], [1], [2], [3], [4], [5], [6], [7], [8], [9], [10], [11]]

/-- A two-variable data mapping used to witness the general dataset
theorems. -/
def exData2 : DataMap :=
  [("Y", [[0, 1], [2, 3], [4, 5], [6, 7], [8, 9], [10, 11]]),
   ("U", [[100], [101], [102], [103], [104], [105]])]

/-- Nine-row single-variable series 0..8 for the split concatenation
counterexample. -/
def exY9 : List (List Int) :=
  [[0], [1], [2], [3], [4], [5], [6], [7], [8]]

/-- The dataset `mkSeqDataset exData2 2 false` builds (horizon 2,
chunked). -/
def exDs2 : SeqDataset :=
  { vkeys := ["Y", "U"],
    vslices := [("Y", (0, 2)), ("U", (2, 3))],
    full_data := [[0, 1, 100], [2, 3, 101], [4, 5, 102], [6, 7, 103],
      [8, 9, 104], [10, 11, 105]],
    nsteps := 2,
    nsim := 6,
    moving_horizon := false,
    batched_data := [[[0, 1, 100], [2, 3, 101]], [[4, 5, 102], [6, 7, 103]],
      [[8, 9, 104], [10, 11, 105]]] }

/-- The train third of `exY9` under the default split. -/
def exTr9 : DataMap := [("Y", [[0], [1], [2]])]

/-- The dev third of `exY9` under the default split. -/
def exDv9 : DataMap := [("Y", [[3], [4], [5]])]

/-- The test third of `exY9` under the default split. -/
def exTe9 : DataMap := [("Y", [[6], [7], [8]])]

/-- `mkSeqDataset exTr9 1 false`. -/
def exDsTr9 : SeqDataset :=
  { vkeys := ["Y"], vslices := [("Y", (0, 1))],
    full_data := [[0], [1], [2]], nsteps := 1, nsim := 3,
    moving_horizon := false, batched_data := [[[0]], [[1]], [[2]]] }

/-- `mkSeqDataset exDv9 1 false`. -/
def exDsDv9 : SeqDataset :=
  { vkeys := ["Y"], vslices := [("Y", (0, 1))],
    full_data := [[3], [4], [5]], nsteps := 1, nsim := 3,
    moving_horizon := false, batched_data := [[[3]], [[4]], [[5]]] }

/-- `mkSeqDataset exTe9 1 false`. -/
def exDsTe9 : SeqDataset :=
  { vkeys := ["Y"], vslices := [("Y", (0, 1))],
    full_data := [[6], [7], [8]], nsteps := 1, nsim := 3,
    moving_horizon := false, batched_data := [[[6]], [[7]], [[8]]] }

/-!
## Theorems
-/

theorem alMem_iff {α : Type} (k : String) (d : List (String × α)) :
    alMem k d = true ↔ k ∈ alKeys d := by
  induction d with
  | nil => simp [alMem, alKeys]
  | cons kv d ih =>
    simp only [alMem, List.any_cons, alKeys, List.map_cons, List.mem_cons,
      Bool.or_eq_true, decide_eq_true_iff] at *
    constructor
    · rintro (h | h)
      · exact Or.inl h.symm
      · exact Or.inr (ih.mp h)
    · rintro (h | h)
      · exact Or.inl h.symm
      · exact Or.inr (ih.mpr h)

theorem alLookup_append_left {α : Type} (k : String)
    (d e : List (String × α)) (h : alMem k d = true) :
    alLookup k (d ++ e) = alLookup k d := by
  induction d with
  | nil => simp [alMem] at h
  | cons kv d ih =>
    simp only [alMem, List.any_cons, Bool.or_eq_true, decide_eq_true_iff] at h
    by_cases hk : kv.1 = k
    · simp [alLookup, hk]
    · have hmem : alMem k d = true := by
        rcases h with h | h
        · exact absurd h hk
        · exact h
      simp [alLookup, hk, ih hmem]

theorem alLookup_append_right {α : Type} (k : String)
    (d e : List (String × α)) (h : alMem k d = false) :
    alLookup k (d ++ e) = alLookup k e := by
  induction d with
  | nil => simp
  | cons kv d ih =>
    simp only [alMem, List.any_cons, Bool.or_eq_false_iff,
      decide_eq_false_iff_not] at h
    have h2 : alMem k d = false := h.2
    simp [alLookup, h.1, ih h2]

theorem alLookup_eq_none {α : Type} (k : String) (d : List (String × α))
    (h : alMem k d = false) : alLookup k d = none := by
  induction d with
  | nil => rfl
  | cons kv d ih =>
    simp only [alMem, List.any_cons, Bool.or_eq_false_iff,
      decide_eq_false_iff_not] at h
    simp [alLookup, h.1, ih h.2]

theorem alMap_update_id {α : Type} (e : List (String × α)) :
    ∀ d : List (String × α), (∀ kv ∈ d, alMem kv.1 e = false) →
    d.map (fun kv =>
      match alLookup kv.1 e with
      | some v => (kv.1, v)
      | none => kv) = d := by
  intro d
  induction d with
  | nil => intro _; rfl
  | cons kv d ih =>
    intro h2
    have hnone : alLookup kv.1 e = none :=
      alLookup_eq_none kv.1 e (h2 kv (List.mem_cons_self kv d))
    simp only [List.map_cons, hnone]
    rw [ih (fun kv2 hkv2 => h2 kv2 (List.mem_cons_of_mem kv hkv2))]

theorem alUpdate_disjoint {α : Type} (d e : List (String × α))
    (h : ∀ kv ∈ e, alMem kv.1 d = false)
    (h2 : ∀ kv ∈ d, alMem kv.1 e = false) :
    alUpdate d e = d ++ e := by
  unfold alUpdate
  have hfilter : e.filter (fun kv => !(alMem kv.1 d)) = e := by
    apply List.filter_eq_self.mpr
    intro kv hkv
    simp [h kv hkv]
  rw [alMap_update_id e d h2, hfilter]

theorem alLookup_alSet_self {α : Type} (d : List (String × α))
    (k : String) (v : α) : alLookup k (alSet d k v) = some v := by
  unfold alSet
  by_cases h : alMem k d = true
  · simp only [h, if_true]
    induction d with
    | nil => simp [alMem] at h
    | cons kv d ih =>
      obtain ⟨k1, v1⟩ := kv
      by_cases hk : k1 = k
      · subst hk
        simp only [List.map_cons]
        simp [alLookup]
      · simp only [alMem, List.any_cons, Bool.or_eq_true,
          decide_eq_true_iff] at h
        have hmem : alMem k d = true := by
          rcases h with h | h
          · exact absurd h hk
          · exact h
        simp only [List.map_cons]
        rw [if_neg (by simpa using hk)]
        simp only [alLookup]
        rw [if_neg hk]
        exact ih hmem
  · simp only [h]
    simp only [Bool.false_eq_true, if_false]
    rw [alLookup_append_right k d [(k, v)] (by simpa using h)]
    simp [alLookup]

theorem alKeys_alSet {α : Type} (d : List (String × α)) (k : String)
    (v : α) :
    alKeys (alSet d k v) = if alMem k d then alKeys d else alKeys d ++ [k] := by
  unfold alSet
  by_cases h : alMem k d = true
  · simp only [h, if_true]
    unfold alKeys
    rw [List.map_map]
    apply List.map_congr_left
    intro kv _
    by_cases hk : kv.1 = k
    · simp [Function.comp, hk]
    · simp [Function.comp, hk]
  · simp only [h]
    simp [alKeys]

theorem mem_alKeys_alSet {α : Type} (d : List (String × α)) (k k1 : String)
    (v : α) (h : k1 ∈ alKeys d) : k1 ∈ alKeys (alSet d k v) := by
  rw [alKeys_alSet]
  by_cases hm : alMem k d = true
  · simp [hm, h]
  · simp only [hm]
    simp [h]

theorem self_mem_alKeys_alSet {α : Type} (d : List (String × α))
    (k : String) (v : α) : k ∈ alKeys (alSet d k v) := by
  rw [alKeys_alSet]
  by_cases hm : alMem k d = true
  · simp only [hm, if_true]
    rw [← alMem_iff]
    exact hm
  · simp [hm]

theorem mem_alKeys_of_mem {α : Type} {kv : String × α} {d : List (String × α)}
    (h : kv ∈ d) : kv.1 ∈ alKeys d :=
  List.mem_map_of_mem Prod.fst h

theorem exists_of_mem_alKeys {α : Type} {k : String} {d : List (String × α)}
    (h : k ∈ alKeys d) : ∃ kv ∈ d, kv.1 = k := by
  simpa [alKeys] using List.mem_map.mp h

theorem disjoint_symm {α : Type} (d out : List (String × α))
    (h : ∀ kv ∈ out, alMem kv.1 d = false) :
    ∀ kv ∈ d, alMem kv.1 out = false := by
  intro kv hkv
  cases hm : alMem kv.1 out with
  | false => rfl
  | true =>
    exfalso
    obtain ⟨kv2, hkv2, hk⟩ := exists_of_mem_alKeys ((alMem_iff _ _).mp hm)
    have h2 := h kv2 hkv2
    rw [hk] at h2
    have hmem : alMem kv.1 d = true := (alMem_iff _ _).mpr (mem_alKeys_of_mem hkv)
    rw [hmem] at h2
    exact absurd h2 (by simp)

theorem checkNameCollision_ok {α : Type} {d out : List (String × α)}
    (h : checkNameCollision d out = .ok ()) :
    ∀ kv ∈ out, alMem kv.1 d = false := by
  unfold checkNameCollision at h
  by_cases hc : out.all (fun kv => !(alMem kv.1 d)) = true
  · intro kv hkv
    have := List.all_eq_true.mp hc kv hkv
    simpa using this
  · rw [if_neg hc] at h
    exact absurd h (by simp)

theorem alUpdate_of_check {α : Type} {d out : List (String × α)}
    (h : checkNameCollision d out = .ok ()) :
    alUpdate d out = d ++ out :=
  alUpdate_disjoint d out (checkNameCollision_ok h)
    (disjoint_symm d out (checkNameCollision_ok h))

theorem runTerms_ok :
    ∀ (ts : List LossTerm) (d : NTDict) (acc : Int) (d2 : NTDict) (tot : Int),
    runTerms ts d acc = .ok (d2, tot) →
    ∃ vs : List Int, specTermVals ts d = .ok vs ∧
      d2 = d ++ termEntries ts vs ∧ tot = acc + vs.sum := by
  intro ts
  induction ts with
  | nil =>
    intro d acc d2 tot h
    simp only [runTerms, Except.ok.injEq, Prod.mk.injEq] at h
    exact ⟨[], rfl, by simp [termEntries, h.1.symm], by simp [h.2.symm]⟩
  | cons t ts ih =>
    intro d acc d2 tot h
    simp only [runTerms] at h
    split at h
    · exact absurd h (by simp)
    · rename_i v he
      split at h
      · exact absurd h (by simp)
      · rename_i u hc
        cases u
        rw [alUpdate_of_check hc] at h
        obtain ⟨vs, hv1, hv2, hv3⟩ := ih _ _ _ _ h
        refine ⟨v :: vs, ?_, ?_, ?_⟩
        · simp only [specTermVals, he, hv1]
        · rw [hv2]
          simp [termEntries, List.append_assoc]
        · simp only [List.sum_cons]
          omega

theorem specTermVals_length :
    ∀ (ts : List LossTerm) (d : NTDict) (vs : List Int),
    specTermVals ts d = .ok vs → vs.length = ts.length := by
  intro ts
  induction ts with
  | nil =>
    intro d vs h
    simp only [specTermVals, Except.ok.injEq] at h
    simp [h.symm]
  | cons t ts ih =>
    intro d vs h
    simp only [specTermVals] at h
    split at h
    · exact absurd h (by simp)
    · rename_i v he
      split at h
      · exact absurd h (by simp)
      · rename_i vs2 hs
        simp only [Except.ok.injEq] at h
        subst h
        simp [ih _ _ hs]

theorem termEntries_keys :
    ∀ (ts : List LossTerm) (vs : List Int), vs.length = ts.length →
    alKeys (termEntries ts vs) = ts.map LossTerm.name := by
  intro ts
  induction ts with
  | nil =>
    intro vs h
    cases vs with
    | nil => rfl
    | cons v vs => simp at h
  | cons t ts ih =>
    intro vs h
    cases vs with
    | nil => simp at h
    | cons v vs =>
      simp only [List.length_cons, Nat.add_right_cancel_iff] at h
      have := ih vs h
      simp only [alKeys] at this
      simp [termEntries, alKeys, List.map_cons, this]

theorem calculate_loss_ok (p : Problem) (d r : NTDict)
    (h : p.calculate_loss d = .ok r) :
    ∃ vo vc : List Int,
      specTermVals p.objectives d = .ok vo ∧
      specTermVals p.constraints (d ++ termEntries p.objectives vo) = .ok vc ∧
      vo.length = p.objectives.length ∧
      vc.length = p.constraints.length ∧
      r = alSet (d ++ termEntries p.objectives vo ++ termEntries p.constraints vc)
            "loss" (TVal.num (vo.sum + vc.sum)) ∧
      alLookup "loss" r = some (TVal.num (vo.sum + vc.sum)) := by
  unfold Problem.calculate_loss at h
  split at h
  · exact absurd h (by simp)
  · rename_i d1 l1 h1
    split at h
    · exact absurd h (by simp)
    · rename_i d2 l2 h2
      simp only [Except.ok.injEq] at h
      obtain ⟨vo, ho1, ho2, ho3⟩ := runTerms_ok _ _ _ _ _ h1
      subst ho2
      obtain ⟨vc, hc1, hc2, hc3⟩ := runTerms_ok _ _ _ _ _ h2
      have hl2 : l2 = vo.sum + vc.sum := by omega
      refine ⟨vo, vc, ho1, hc1, specTermVals_length _ _ _ ho1,
        specTermVals_length _ _ _ hc1, ?_, ?_⟩
      · rw [← h, hc2, hl2, List.append_assoc]
      · rw [← h, hc2, hl2]
        exact alLookup_alSet_self _ _ _

theorem alKeys_append {α : Type} (d e : List (String × α)) :
    alKeys (d ++ e) = alKeys d ++ alKeys e := by
  simp [alKeys]

theorem stepAux_ok :
    ∀ (cs : List Component) (d d2 : NTDict), stepAux cs d = .ok d2 →
    d2 = d ++ (stepOutputs cs d).flatten := by
  intro cs
  induction cs with
  | nil =>
    intro d d2 h
    simp only [stepAux, Except.ok.injEq] at h
    simp [stepOutputs, h.symm]
  | cons c cs ih =>
    intro d d2 h
    simp only [stepAux] at h
    split at h
    · exact absurd h (by simp)
    · rename_i u hc
      cases u
      have h2 := ih _ _ h
      rw [alUpdate_of_check hc] at h2
      simp [stepOutputs, alUpdate_of_check hc, h2, List.append_assoc]

theorem stepAux_of_not_collides :
    ∀ (cs : List Component) (d : NTDict), stepCollides cs d = false →
    stepAux cs d = .ok (stepAccum cs d) := by
  intro cs
  induction cs with
  | nil => intro d _; rfl
  | cons c cs ih =>
    intro d h
    by_cases hcond : (c.eval d).all (fun kv => !(alMem kv.1 d)) = true
    · have hchk : checkNameCollision d (c.eval d) = .ok () := by
        unfold checkNameCollision
        rw [if_pos hcond]
      simp only [stepCollides, if_pos hcond] at h
      simp only [stepAux, hchk, stepAccum]
      exact ih _ h
    · exfalso
      simp only [stepCollides, if_neg hcond] at h
      exact absurd h (by simp)

theorem stepAccum_append :
    ∀ (cs : List Component) (d : NTDict), stepCollides cs d = false →
    stepAccum cs d = d ++ (stepOutputs cs d).flatten := by
  intro cs
  induction cs with
  | nil => intro d _; simp [stepAccum, stepOutputs]
  | cons c cs ih =>
    intro d h
    by_cases hcond : (c.eval d).all (fun kv => !(alMem kv.1 d)) = true
    · have hchk : checkNameCollision d (c.eval d) = .ok () := by
        unfold checkNameCollision
        rw [if_pos hcond]
      simp only [stepCollides, if_pos hcond] at h
      simp only [stepAccum, stepOutputs, List.flatten_cons]
      rw [ih _ h, alUpdate_of_check hchk, List.append_assoc]
    · exfalso
      simp only [stepCollides, if_neg hcond] at h
      exact absurd h (by simp)

theorem stepAux_of_collides :
    ∀ (cs : List Component) (d : NTDict), stepCollides cs d = true →
    ∃ e, stepAux cs d = .error e := by
  intro cs
  induction cs with
  | nil => intro d h; exact absurd h (by simp [stepCollides])
  | cons c cs ih =>
    intro d h
    by_cases hcond : (c.eval d).all (fun kv => !(alMem kv.1 d)) = true
    · have hchk : checkNameCollision d (c.eval d) = .ok () := by
        unfold checkNameCollision
        rw [if_pos hcond]
      simp only [stepCollides, if_pos hcond] at h
      obtain ⟨e, he⟩ := ih _ h
      exact ⟨e, by simp only [stepAux, hchk]; exact he⟩
    · have hchk : checkNameCollision d (c.eval d) =
          .error "Name collision in input and output dictionaries" := by
        unfold checkNameCollision
        rw [if_neg hcond]
      refine ⟨"Name collision in input and output dictionaries", ?_⟩
      simp only [stepAux, hchk]

/-- C1: when `calculate_loss` returns, it has evaluated each objective
and then each constraint in declared order against the accumulating
dictionary (each term's named weighted scalar merged in before later
terms run, so later terms can read earlier values by name), and the
result is the input dictionary augmented with every term's named value
and a "loss" entry equal to the sum of all weighted objective values
plus all weighted constraint values, unconditionally over all declared
terms. -/
theorem claim_C1_calculate_loss_contract (p : Problem) (d r : NTDict)
    (h : p.calculate_loss d = .ok r) :
    ∃ vo vc : List Int,
      specTermVals p.objectives d = .ok vo ∧
      specTermVals p.constraints (d ++ termEntries p.objectives vo) = .ok vc ∧
      vo.length = p.objectives.length ∧
      vc.length = p.constraints.length ∧
      r = alSet (d ++ termEntries p.objectives vo ++ termEntries p.constraints vc)
            "loss" (TVal.num (vo.sum + vc.sum)) ∧
      alLookup "loss" r = some (TVal.num (vo.sum + vc.sum)) :=
  calculate_loss_ok p d r h

theorem claim_C1_witness :
    ∃ vo vc : List Int,
      specTermVals exProblem.objectives exDictLoss = .ok vo ∧
      specTermVals exProblem.constraints
        (exDictLoss ++ termEntries exProblem.objectives vo) = .ok vc ∧
      vo.length = exProblem.objectives.length ∧
      vc.length = exProblem.constraints.length ∧
      exLossResult = alSet (exDictLoss ++ termEntries exProblem.objectives vo
            ++ termEntries exProblem.constraints vc)
            "loss" (TVal.num (vo.sum + vc.sum)) ∧
      alLookup "loss" exLossResult = some (TVal.num (vo.sum + vc.sum)) :=
  claim_C1_calculate_loss_contract exProblem exDictLoss exLossResult (by rfl)

/-- C2: `step` invokes each component in declared order on the
dictionary accumulated so far; when no output key collides with an
existing key the outputs are merged in order and the fully accumulated
dictionary is returned, and when some component's output key already
exists in the accumulated dictionary the call fails fatally (no merged
dictionary is produced). -/
theorem claim_C2_step_contract (p : Problem) (d : NTDict) :
    (stepCollides p.components d = false →
      p.step d = .ok (stepAccum p.components d) ∧
      stepAccum p.components d = d ++ (stepOutputs p.components d).flatten) ∧
    (stepCollides p.components d = true →
      ∃ e, p.step d = .error e) := by
  constructor
  · intro h
    exact ⟨stepAux_of_not_collides _ _ h, stepAccum_append _ _ h⟩
  · intro h
    exact stepAux_of_collides _ _ h

theorem claim_C2_witness :
    exProblem.step exData = .ok (stepAccum exProblem.components exData) ∧
    stepAccum exProblem.components exData =
      exData ++ (stepOutputs exProblem.components exData).flatten :=
  (claim_C2_step_contract exProblem exData).1 (by rfl)

/-- C7: when `forward` succeeds on an input carrying the reserved "name"
entry, the returned dictionary's keys include, each prefixed with the
name tag and an underscore: every key of every component's output
dictionary, every objective and constraint name, and "loss". -/
theorem claim_C7_forward_keys (p : Problem) (data res : NTDict) (nm : String)
    (h : p.forward data = .ok res)
    (hn : alLookup "name" data = some (TVal.str nm)) :
    (nm ++ "_" ++ "loss") ∈ alKeys res ∧
    (∀ t ∈ p.objectives, (nm ++ "_" ++ t.name) ∈ alKeys res) ∧
    (∀ t ∈ p.constraints, (nm ++ "_" ++ t.name) ∈ alKeys res) ∧
    (∀ o ∈ stepOutputs p.components data, ∀ k ∈ alKeys o,
      (nm ++ "_" ++ k) ∈ alKeys res) := by
  unfold Problem.forward at h
  split at h
  · exact absurd h (by simp)
  · rename_i od hs
    split at h
    · exact absurd h (by simp)
    · rename_i od2 hc
      split at h
      · exact absurd h (by simp)
      · rename_i nmv hnm
        rw [hn] at hnm
        have hnmv : nmv = TVal.str nm := by
          injection hnm with hnm2
          exact hnm2.symm
        subst hnmv
        simp only [Except.ok.injEq] at h
        have hkeys : alKeys res = (alKeys od2).map (fun k => nm ++ "_" ++ k) := by
          rw [← h]
          simp [alKeys, List.map_map, TVal.render]
        have hmem : ∀ k ∈ alKeys od2, (nm ++ "_" ++ k) ∈ alKeys res := by
          intro k hk
          rw [hkeys]
          exact List.mem_map_of_mem _ hk
        have hstep : od = data ++ (stepOutputs p.components data).flatten :=
          stepAux_ok p.components data od hs
        obtain ⟨vo, vc, hvo, hvc, hlo, hlc, hr, _⟩ :=
          calculate_loss_ok p od od2 hc
        have hkeys2 : ∀ k, k ∈ alKeys (od ++ termEntries p.objectives vo
            ++ termEntries p.constraints vc) → k ∈ alKeys od2 := by
          intro k hk
          rw [hr]
          exact mem_alKeys_alSet _ _ _ _ hk
        refine ⟨?_, ?_, ?_, ?_⟩
        · apply hmem
          rw [hr]
          exact self_mem_alKeys_alSet _ _ _
        · intro t ht
          apply hmem
          apply hkeys2
          rw [alKeys_append, alKeys_append]
          rw [termEntries_keys _ _ hlo]
          have : t.name ∈ p.objectives.map LossTerm.name :=
            List.mem_map_of_mem _ ht
          simp [this]
        · intro t ht
          apply hmem
          apply hkeys2
          rw [alKeys_append, alKeys_append]
          rw [termEntries_keys _ _ hlc]
          have : t.name ∈ p.constraints.map LossTerm.name :=
            List.mem_map_of_mem _ ht
          simp [this]
        · intro o ho k hk
          apply hmem
          apply hkeys2
          rw [alKeys_append, alKeys_append, hstep, alKeys_append]
          have : k ∈ alKeys (stepOutputs p.components data).flatten := by
            unfold alKeys
            rw [List.map_flatten]
            rw [List.mem_flatten]
            exact ⟨alKeys o, by
              rw [List.mem_map]
              exact ⟨o, ho, rfl⟩, hk⟩
          simp [this]

theorem claim_C7_witness :
    ("train" ++ "_" ++ "loss") ∈ alKeys exForwardResult ∧
    (∀ t ∈ exProblem.objectives,
      ("train" ++ "_" ++ t.name) ∈ alKeys exForwardResult) ∧
    (∀ t ∈ exProblem.constraints,
      ("train" ++ "_" ++ t.name) ∈ alKeys exForwardResult) ∧
    (∀ o ∈ stepOutputs exProblem.components exData, ∀ k ∈ alKeys o,
      ("train" ++ "_" ++ k) ∈ alKeys exForwardResult) :=
  claim_C7_forward_keys exProblem exData exForwardResult "train"
    (by rfl) (by rfl)

theorem alLookup_mem {α : Type} {k : String} {d : List (String × α)} {v : α}
    (h : alLookup k d = some v) : (k, v) ∈ d := by
  induction d with
  | nil => simp [alLookup] at h
  | cons kv d ih =>
    obtain ⟨k1, v1⟩ := kv
    simp only [alLookup] at h
    by_cases hk : k1 = k
    · rw [if_pos hk] at h
      injection h with h
      subst hk
      subst h
      exact List.mem_cons_self _ _
    · rw [if_neg hk] at h
      exact List.mem_cons_of_mem _ (ih h)

theorem alLookup_none_alMem {α : Type} {k : String} {d : List (String × α)}
    (h : alLookup k d = none) : alMem k d = false := by
  induction d with
  | nil => rfl
  | cons kv d ih =>
    obtain ⟨k1, v1⟩ := kv
    simp only [alLookup] at h
    by_cases hk : k1 = k
    · rw [if_pos hk] at h
      exact absurd h (by simp)
    · rw [if_neg hk] at h
      have h2 := ih h
      cases hm : alMem k ((k1, v1) :: d) with
      | false => rfl
      | true =>
        exfalso
        simp only [alMem, List.any_cons, Bool.or_eq_true,
          decide_eq_true_iff] at hm
        rcases hm with hm | hm
        · exact hk hm
        · have h3 : alMem k d = true := hm
          rw [h2] at h3
          exact absurd h3 (by simp)

theorem rowAt_mem {v : List (List Int)} {t : Nat} (h : t < v.length) :
    rowAt v t ∈ v := by
  unfold rowAt
  rw [List.getD_eq_getElem?_getD, List.getElem?_eq_getElem h]
  exact List.getElem_mem h

theorem rowAt_eq_getElem {v : List (List Int)} {t : Nat} (h : t < v.length) :
    rowAt v t = v[t] := by
  unfold rowAt
  rw [List.getD_eq_getElem?_getD, List.getElem?_eq_getElem h]
  rfl

theorem rowAt_length {v : List (List Int)} {w : Nat} {t : Nat}
    (hw : ∀ r ∈ v, r.length = w) (h : t < v.length) :
    (rowAt v t).length = w :=
  hw _ (rowAt_mem h)

theorem catData_length (data : DataMap) (nsim : Nat) :
    (catData data nsim).length = nsim := by
  simp [catData]

theorem fullRow_slice :
    ∀ (data : DataMap) (pre : List Int) (t : Nat) (k : String) (a b : Nat)
      (nsim : Nat), RectData data nsim → t < nsim →
    alLookup k (mkVSlices data pre.length) = some (a, b) →
    sliceRow (a, b) (pre ++ fullRow data t) =
      rowAt ((alLookup k data).getD []) t := by
  intro data
  induction data with
  | nil =>
    intro pre t k a b nsim hr ht hsl
    simp [mkVSlices, alLookup] at hsl
  | cons kv rest ih =>
    obtain ⟨k1, v1⟩ := kv
    intro pre t k a b nsim hr ht hsl
    have hv1 := hr (k1, v1) (List.mem_cons_self _ _)
    have hlen : (rowAt v1 t).length = matWidth v1 :=
      rowAt_length hv1.2 (by rw [hv1.1]; exact ht)
    simp only [mkVSlices, alLookup] at hsl
    by_cases hk : k1 = k
    · rw [if_pos hk] at hsl
      simp only [Option.some.injEq, Prod.mk.injEq] at hsl
      obtain ⟨ha, hb⟩ := hsl
      subst ha
      subst hb
      simp only [fullRow, List.map_cons, List.flatten_cons, sliceRow,
        alLookup, if_pos hk, Option.getD_some]
      rw [List.drop_left]
      have harith : pre.length + matWidth v1 - pre.length = matWidth v1 := by
        omega
      rw [harith]
      exact List.take_left' hlen
    · rw [if_neg hk] at hsl
      have hrest : RectData rest nsim :=
        fun kv2 hkv2 => hr kv2 (List.mem_cons_of_mem _ hkv2)
      have hsl2 : alLookup k (mkVSlices rest (pre ++ rowAt v1 t).length) =
          some (a, b) := by
        rw [List.length_append, hlen]
        exact hsl
      have hres := ih (pre ++ rowAt v1 t) t k a b nsim hrest ht hsl2
      simp only [fullRow, List.map_cons, List.flatten_cons] at hres ⊢
      rw [← List.append_assoc]
      simp only [alLookup, if_neg hk]
      exact hres

theorem sliceMat_catData (data : DataMap) (nsim : Nat) (k : String)
    (v : List (List Int)) (a b a0 m : Nat)
    (hr : RectData data nsim)
    (hv : alLookup k data = some v)
    (hsl : alLookup k (mkVSlices data 0) = some (a, b)) :
    sliceMat (a, b) (((catData data nsim).drop a0).take m) =
      (v.drop a0).take m := by
  have hkv : (k, v) ∈ data := alLookup_mem hv
  have hvlen : v.length = nsim := (hr (k, v) hkv).1
  apply List.ext_getElem
  · simp [sliceMat, catData, hvlen]
  · intro i h1 h2
    have hbound : a0 + i < nsim := by
      simp only [sliceMat, List.length_map, List.length_take,
        List.length_drop, catData_length] at h1
      omega
    have hvbound : a0 + i < v.length := by omega
    simp only [sliceMat, List.getElem_map]
    rw [List.getElem_take, List.getElem_drop, List.getElem_take,
      List.getElem_drop]
    have hsl0 : alLookup k (mkVSlices data (List.length ([] : List Int))) =
        some (a, b) := by
      simpa using hsl
    have hres := fullRow_slice data [] (a0 + i) k a b nsim hr hbound hsl0
    simp only [List.nil_append, hv, Option.getD_some] at hres
    simp only [catData, List.getElem_map, List.getElem_range]
    rw [← rowAt_eq_getElem hvbound]
    exact hres

theorem strTag_cancel {tag a b : String} (h : a ++ tag = b ++ tag) : a = b := by
  have h2 : a.data ++ tag.data = b.data ++ tag.data := by
    rw [← String.data_append, ← String.data_append, h]
  exact String.ext (List.append_inj' h2 rfl).1

theorem strTag_pf (a b : String) : a ++ "p" ≠ b ++ "f" := by
  intro h
  have h2 : a.data ++ "p".data = b.data ++ "f".data := by
    rw [← String.data_append, ← String.data_append, h]
  have h3 := (List.append_inj' h2 rfl).2
  simp at h3

theorem lookup_keyMap {β : Type} (g : String → β) :
    ∀ (vks : List String) (k : String), k ∈ vks →
    alLookup k (vks.map (fun k1 => (k1, g k1))) = some (g k) := by
  intro vks
  induction vks with
  | nil => intro k hk; simp at hk
  | cons k1 vks ih =>
    intro k hk
    simp only [List.map_cons, alLookup]
    by_cases h1 : k1 = k
    · rw [if_pos h1, h1]
    · rw [if_neg h1]
      rcases List.mem_cons.mp hk with h | h
      · exact absurd h.symm h1
      · exact ih k h

theorem lookup_tagMap {β : Type} (tag : String) (g : String → β) :
    ∀ (vks : List String) (k : String),
    alLookup (k ++ tag) (vks.map (fun k1 => (k1 ++ tag, g k1))) =
      alLookup k (vks.map (fun k1 => (k1, g k1))) := by
  intro vks
  induction vks with
  | nil => intro k; rfl
  | cons k1 vks ih =>
    intro k
    simp only [List.map_cons, alLookup]
    by_cases h1 : k1 = k
    · subst h1
      rw [if_pos rfl, if_pos rfl]
    · rw [if_neg (fun hc => h1 (strTag_cancel hc)), if_neg h1]
      exact ih k

theorem lookup_pblock_f_none {β : Type} (g : String → β) :
    ∀ (vks : List String) (k : String),
    alLookup (k ++ "f") (vks.map (fun k1 => (k1 ++ "p", g k1))) = none := by
  intro vks
  induction vks with
  | nil => intro k; rfl
  | cons k1 vks ih =>
    intro k
    simp only [List.map_cons, alLookup]
    rw [if_neg (fun hc => strTag_pf k1 k hc)]
    exact ih k

theorem lookup_pftag_p {β : Type} (vks : List String) (g gf : String → β)
    (k : String) (hk : k ∈ vks) :
    alLookup (k ++ "p") ((vks.map (fun k1 => (k1 ++ "p", g k1))) ++
      (vks.map (fun k1 => (k1 ++ "f", gf k1)))) = some (g k) := by
  rw [alLookup_append_left]
  · rw [lookup_tagMap, lookup_keyMap g vks k hk]
  · cases hm : alMem (k ++ "p") (vks.map (fun k1 => (k1 ++ "p", g k1))) with
    | true => rfl
    | false =>
      exfalso
      have := alLookup_eq_none (k ++ "p") _ hm
      rw [lookup_tagMap, lookup_keyMap g vks k hk] at this
      exact absurd this (by simp)

theorem lookup_pftag_f {β : Type} (vks : List String) (g gf : String → β)
    (k : String) (hk : k ∈ vks) :
    alLookup (k ++ "f") ((vks.map (fun k1 => (k1 ++ "p", g k1))) ++
      (vks.map (fun k1 => (k1 ++ "f", gf k1)))) = some (gf k) := by
  rw [alLookup_append_right]
  · rw [lookup_tagMap, lookup_keyMap gf vks k hk]
  · exact alLookup_none_alMem (lookup_pblock_f_none g vks k)

theorem mkVSlices_isSome :
    ∀ (data : DataMap) (off : Nat) (k : String), k ∈ data.map Prod.fst →
    ∃ ab : ColSlice, alLookup k (mkVSlices data off) = some ab := by
  intro data
  induction data with
  | nil => intro off k hk; simp at hk
  | cons kv rest ih =>
    obtain ⟨k1, v1⟩ := kv
    intro off k hk
    simp only [mkVSlices, alLookup]
    by_cases h1 : k1 = k
    · exact ⟨(off, off + matWidth v1), by rw [if_pos h1]⟩
    · rcases List.mem_cons.mp hk with h | h
      · exact absurd h.symm h1
      · obtain ⟨ab, hab⟩ := ih (off + matWidth v1) k h
        exact ⟨ab, by rw [if_neg h1]; exact hab⟩

theorem batch_tensor_ok (x : List (List Int)) (steps : Nat) (mh : Bool)
    (b : List (List (List Int))) (h : batch_tensor x steps mh = .ok b) :
    0 < steps ∧ steps ≤ x.length ∧
    b = (List.range ((x.length - steps) / (if mh then 1 else steps) + 1)).map
      (fun i => (x.drop (i * (if mh then 1 else steps))).take steps) := by
  simp only [batch_tensor] at h
  by_cases hc : 0 < steps ∧ steps ≤ x.length
  · rw [if_pos hc] at h
    simp only [Except.ok.injEq] at h
    exact ⟨hc.1, hc.2, h.symm⟩
  · rw [if_neg hc] at h
    exact absurd h (by simp)

theorem mkSeqDataset_ok (data : DataMap) (n : Nat) (mh : Bool)
    (ds : SeqDataset) (nsim : Nat)
    (hr : RectData data nsim) (hne : data ≠ [])
    (h : mkSeqDataset data n mh = .ok ds) :
    ds.vkeys = data.map Prod.fst ∧
    ds.vslices = mkVSlices data 0 ∧
    ds.full_data = catData data nsim ∧
    ds.nsteps = n ∧ ds.nsim = nsim ∧ 0 < n ∧ n ≤ nsim ∧
    ds.batched_data = (List.range ((nsim - n) / (if mh then 1 else n) + 1)).map
      (fun i => ((catData data nsim).drop (i * (if mh then 1 else n))).take n) := by
  cases data with
  | nil => exact absurd rfl hne
  | cons kv rest =>
    obtain ⟨k0, v0⟩ := kv
    have hv0 : v0.length = nsim := (hr (k0, v0) (List.mem_cons_self _ _)).1
    simp only [mkSeqDataset] at h
    split at h
    · split at h
      · exact absurd h (by simp)
      · rename_i b hbt
        obtain ⟨hn1, hn2, hb⟩ := batch_tensor_ok _ _ _ _ hbt
        rw [catData_length, hv0] at hn2
        simp only [Except.ok.injEq] at h
        subst h
        refine ⟨rfl, rfl, ?_, rfl, ?_, hn1, hn2, ?_⟩
        · show catData ((k0, v0) :: rest) v0.length =
            catData ((k0, v0) :: rest) nsim
          rw [hv0]
        · show (catData ((k0, v0) :: rest) v0.length).length = nsim
          rw [catData_length, hv0]
        · show b = _
          rw [hb, catData_length, hv0]
    · exact absurd h (by simp)

theorem getitem_window (data : DataMap) (n : Nat) (mh : Bool)
    (ds : SeqDataset) (nsim : Nat) (k : String) (v : List (List Int))
    (i : Nat) (hr : RectData data nsim) (hv : alLookup k data = some v)
    (h : mkSeqDataset data n mh = .ok ds)
    (hi : i + 1 < ds.batched_data.length) :
    alLookup (k ++ "p") (ds.getitem i) =
      some ((v.drop (i * (if mh then 1 else n))).take n) ∧
    alLookup (k ++ "f") (ds.getitem i) =
      some ((v.drop ((i + 1) * (if mh then 1 else n))).take n) := by
  have hne : data ≠ [] := by
    intro hd
    subst hd
    simp [alLookup] at hv
  obtain ⟨hvk, hvs, _, _, _, _, _, hbd⟩ :=
    mkSeqDataset_ok data n mh ds nsim hr hne h
  have hkmem : k ∈ ds.vkeys := by
    rw [hvk]
    exact List.mem_map_of_mem Prod.fst (alLookup_mem hv)
  obtain ⟨ab, hab⟩ := mkVSlices_isSome data 0 k (by rw [← hvk]; exact hkmem)
  obtain ⟨a, b⟩ := ab
  have hsl : ds.slOf k = (a, b) := by
    unfold SeqDataset.slOf
    rw [hvs, hab]
    rfl
  have hwin : ∀ j, j < ds.batched_data.length →
      ds.batched_data.getD j [] =
        ((catData data nsim).drop (j * (if mh then 1 else n))).take n := by
    intro j hj
    rw [hbd] at hj
    simp only [List.length_map, List.length_range] at hj
    rw [hbd, List.getD_eq_getElem?_getD,
      List.getElem?_eq_getElem (by simp [hj])]
    simp
  unfold SeqDataset.getitem
  constructor
  · rw [lookup_pftag_p ds.vkeys _ _ k hkmem]
    rw [hwin i (by omega), hsl]
    rw [sliceMat_catData data nsim k v a b _ n hr hv hab]
  · rw [lookup_pftag_f ds.vkeys _ _ k hkmem]
    rw [hwin (i + 1) hi, hsl]
    rw [sliceMat_catData data nsim k v a b _ n hr hv hab]

/-- C3: item `i` of a sequence dataset maps, for every variable `k`,
`k + "p"` to window `i` of the window sequence and `k + "f"` to window
`i + 1` (windows of the variable's own rows, starting at `i·stride`),
and the dataset length is the number of windows minus 1; concretely for
nsim = 12, nsteps = 3, one variable Y with values 0..11 and
moving-horizon batching there are 10 windows, item 0 has Yp = [0,1,2]
and Yf = [1,2,3], and the length is 9 (so 8 is the last valid index). -/
theorem claim_C3_getitem_contract :
    (∀ (data : DataMap) (n : Nat) (mh : Bool) (ds : SeqDataset) (nsim : Nat)
      (k : String) (v : List (List Int)) (i : Nat),
      RectData data nsim → alLookup k data = some v →
      mkSeqDataset data n mh = .ok ds → i + 1 < ds.batched_data.length →
      ds.len = ds.batched_data.length - 1 ∧
      alLookup (k ++ "p") (ds.getitem i) =
        some ((v.drop (i * (if mh then 1 else n))).take n) ∧
      alLookup (k ++ "f") (ds.getitem i) =
        some ((v.drop ((i + 1) * (if mh then 1 else n))).take n)) ∧
    (mkSeqDataset [("Y", exY12)] 3 true).map (fun ds =>
        (ds.batched_data.length, ds.len,
         alLookup "Yp" (ds.getitem 0), alLookup "Yf" (ds.getitem 0))) =
      .ok (10, 9, some [[0], [1], [2]], some [[1], [2], [3]]) := by
  constructor
  · intro data n mh ds nsim k v i hr hv h hi
    have hw := getitem_window data n mh ds nsim k v i hr hv h hi
    exact ⟨rfl, hw.1, hw.2⟩
  · rfl

theorem claim_C3_witness :
    exDs2.len = exDs2.batched_data.length - 1 ∧
    alLookup ("U" ++ "p") (exDs2.getitem 1) = some [[102], [103]] ∧
    alLookup ("U" ++ "f") (exDs2.getitem 1) = some [[104], [105]] := by
  have h := claim_C3_getitem_contract.1 exData2 2 false exDs2 6 "U"
    [[100], [101], [102], [103], [104], [105]] 1
    (by unfold RectData matWidth; decide) (by rfl) (by rfl) (by decide)
  exact ⟨h.1, h.2.1, h.2.2⟩

/-- C6 corrected: in chunked mode (moving_horizon = False) the future
window `k + "f"` at sample `i` starts exactly where the past window ends
(offset by the horizon `n`, no gap and no overlap); in moving-horizon
mode it is offset by 1 only, overlapping the past window in `n - 1`
rows. -/
theorem claim_C6_pf_boundary (data : DataMap) (n : Nat) (mh : Bool)
    (ds : SeqDataset) (nsim : Nat) (k : String) (v : List (List Int))
    (i : Nat) (hr : RectData data nsim) (hv : alLookup k data = some v)
    (h : mkSeqDataset data n mh = .ok ds)
    (hi : i + 1 < ds.batched_data.length) :
    (mh = false →
      alLookup (k ++ "p") (ds.getitem i) = some ((v.drop (i * n)).take n) ∧
      alLookup (k ++ "f") (ds.getitem i) =
        some ((v.drop (i * n + n)).take n)) ∧
    (mh = true →
      alLookup (k ++ "p") (ds.getitem i) = some ((v.drop i).take n) ∧
      alLookup (k ++ "f") (ds.getitem i) =
        some ((v.drop (i + 1)).take n)) := by
  have hw := getitem_window data n mh ds nsim k v i hr hv h hi
  constructor
  · intro hmh
    subst hmh
    simp only [Bool.false_eq_true, if_false] at hw
    refine ⟨hw.1, ?_⟩
    have harith : (i + 1) * n = i * n + n := by ring
    rw [harith] at hw
    exact hw.2
  · intro hmh
    subst hmh
    simp only [if_true] at hw
    refine ⟨?_, ?_⟩
    · have := hw.1
      rw [Nat.mul_one] at this
      exact this
    · have := hw.2
      rw [Nat.mul_one] at this
      exact this

theorem claim_C6_counterexample :
    (mkSeqDataset [("Y", exY12)] 3 true).map
        (fun ds => alLookup ("Y" ++ "f") (ds.getitem 0)) =
      .ok (some [[1], [2], [3]]) ∧
    [[1], [2], [3]] ≠ (exY12.drop 3).take 3 := by
  constructor
  · rfl
  · decide

theorem claim_C6_witness :
    alLookup ("U" ++ "p") (exDs2.getitem 1) = some [[102], [103]] ∧
    alLookup ("U" ++ "f") (exDs2.getitem 1) = some [[104], [105]] := by
  have h := (claim_C6_pf_boundary exData2 2 false exDs2 6 "U"
    [[100], [101], [102], [103], [104], [105]] 1
    (by unfold RectData matWidth; decide) (by rfl) (by rfl) (by decide)).1 rfl
  exact ⟨h.1, h.2⟩

/-- C9 corrected: `SequenceDataset.__init__` performs no horizon check of
its own.  With nsteps strictly greater than nsim construction fails, but
only because `unfold` itself raises inside the tensor windowing; with
nsteps equal to nsim construction succeeds and yields a dataset of
length 0 (one window, minus one). -/
theorem claim_C9_horizon_behavior (data : DataMap) (n : Nat) (mh : Bool)
    (nsim : Nat) (hr : RectData data nsim) (hne : data ≠ []) (hn : 0 < n) :
    (nsim < n → ∃ e, mkSeqDataset data n mh = .error e) ∧
    (n = nsim → (mkSeqDataset data n mh).map SeqDataset.len = .ok 0) := by
  cases data with
  | nil => exact absurd rfl hne
  | cons kv rest =>
    obtain ⟨k0, v0⟩ := kv
    have hv0 : v0.length = nsim := (hr (k0, v0) (List.mem_cons_self _ _)).1
    have hall : rest.all (fun kv => kv.2.length = v0.length) = true := by
      rw [List.all_eq_true]
      intro kv hkv
      have := (hr kv (List.mem_cons_of_mem _ hkv)).1
      simp [this, hv0]
    have hflen : (catData ((k0, v0) :: rest) v0.length).length = nsim := by
      rw [catData_length, hv0]
    constructor
    · intro hlt
      have hcond :
          ¬ (0 < n ∧ n ≤ (catData ((k0, v0) :: rest) v0.length).length) := by
        rw [hflen]
        omega
      refine ⟨"RuntimeError: unfold size exceeds dimension size", ?_⟩
      simp only [mkSeqDataset, hall, if_true, batch_tensor, if_neg hcond]
    · intro heq
      have hcond :
          0 < n ∧ n ≤ (catData ((k0, v0) :: rest) v0.length).length := by
        rw [hflen]
        omega
      simp only [mkSeqDataset, hall, if_true, batch_tensor, if_pos hcond,
        Except.map, SeqDataset.len, Except.ok.injEq]
      simp only [List.length_map, List.length_range, hflen]
      have hz : nsim - n = 0 := by omega
      rw [hz]
      simp

theorem claim_C9_counterexample :
    (mkSeqDataset [("Y", [[0], [1], [2]])] 3 false).map SeqDataset.len =
      .ok 0 := by
  rfl

theorem claim_C9_witness :
    (∃ e, mkSeqDataset [("Y", [[0], [1], [2]])] 5 true = .error e) ∧
    (mkSeqDataset [("Y", [[0], [1], [2]])] 3 true).map SeqDataset.len =
      .ok 0 := by
  constructor
  · exact (claim_C9_horizon_behavior [("Y", [[0], [1], [2]])] 5 true 3
      (by unfold RectData matWidth; decide) (by decide) (by decide)).1
      (by decide)
  · exact (claim_C9_horizon_behavior [("Y", [[0], [1], [2]])] 3 true 3
      (by unfold RectData matWidth; decide) (by decide) (by decide)).2 rfl

/-- C4 corrected: for a series of length L and horizon N with
1 ≤ N ≤ L, the neuromancer `batch_tensor` produces L − N + 1 windows in
moving-horizon mode and ⌊L/N⌋ windows in chunked mode, and deepmpc's
`batch_data` produces ⌊L/N⌋ windows — but deepmpc's `batch_mh_data`
produces only L − N windows when N < L (one fewer than the claimed
L − N + 1, because its `range(0, end_step)` stops before the last
window), and at N = L it produces no windows at all: the final
`transpose(1, 0, 2)` raises `ValueError` on the empty array. -/
theorem claim_C4_window_counts (x : List (List Int)) (n : Nat)
    (h1 : 1 ≤ n) (h2 : n ≤ x.length) :
    (batch_tensor x n true).map List.length = .ok (x.length - n + 1) ∧
    (batch_tensor x n false).map List.length = .ok (x.length / n) ∧
    (n < x.length →
      (batch_mh_data x n).map List.length = .ok (x.length - n)) ∧
    (n = x.length → ∃ e, batch_mh_data x n = .error e) ∧
    (batch_data x n).length = x.length / n := by
  have hc : 0 < n ∧ n ≤ x.length := ⟨h1, h2⟩
  have hdiv : (x.length - n) / n + 1 = x.length / n := by
    have hx : x.length = (x.length - n) + n := by omega
    calc (x.length - n) / n + 1 = ((x.length - n) + n) / n := by
          rw [Nat.add_div_right _ h1]
        _ = x.length / n := by rw [← hx]
  refine ⟨?_, ?_, ?_, ?_, ?_⟩
  · simp only [batch_tensor, if_pos hc, Except.map]
    simp [Nat.div_one]
  · simp only [batch_tensor, if_pos hc, Except.map]
    simp [hdiv]
  · intro hlt
    simp only [batch_mh_data, if_neg (by omega : ¬ x.length ≤ n),
      Except.map]
    simp
  · intro heq
    refine ⟨"ValueError: axes do not match array", ?_⟩
    simp only [batch_mh_data, if_pos (by omega : x.length ≤ n)]
  · simp [batch_data]

theorem claim_C4_counterexample :
    (batch_mh_data [[0], [1], [2], [3], [4]] 2).map List.length = .ok 3 ∧
    (3 : Nat) ≠ 5 - 2 + 1 := by
  constructor
  · rfl
  · decide

theorem claim_C4_witness :
    (batch_tensor [[0], [1], [2], [3], [4]] 2 true).map List.length =
      .ok 4 ∧
    (batch_tensor [[0], [1], [2], [3], [4]] 2 false).map List.length =
      .ok 2 ∧
    (batch_mh_data [[0], [1], [2], [3], [4]] 2).map List.length = .ok 3 ∧
    (∃ e, batch_mh_data [[0], [1], [2], [3], [4]] 5 = .error e) ∧
    (batch_data [[0], [1], [2], [3], [4]] 2).length = 2 := by
  have h := claim_C4_window_counts [[0], [1], [2], [3], [4]] 2
    (by decide) (by decide)
  have h5 := claim_C4_window_counts [[0], [1], [2], [3], [4]] 5
    (by decide) (by decide)
  exact ⟨h.1, h.2.1, h.2.2.1 (by decide), h5.2.2.2.1 (by decide),
    h.2.2.2.2⟩

/-- C10: with any non-None split_ratio, `split_data` raises before
returning — the dev bounds subscript the train `slice` object, which is
not subscriptable — so only the default equal-thirds path can return a
train/dev/test partition. -/
theorem claim_C10_split_ratio_raises (data : DataMap) (hne : data ≠ []) :
    (∀ ratio : List Int, ∃ e, split_data data (some ratio) = .error e) ∧
    (∃ tr dv te, split_data data none = .ok (tr, dv, te)) := by
  cases data with
  | nil => exact absurd rfl hne
  | cons kv rest =>
    constructor
    · intro ratio
      simp only [split_data, List.map_cons]
      cases hr0 : listGetItem ratio 0 with
      | error e =>
        exact ⟨e, by simp only [hr0]⟩
      | ok r0 =>
        exact ⟨"TypeError: 'slice' object is not subscriptable",
          by simp only [hr0, PySlice.getItem]⟩
    · exact ⟨_, _, _, rfl⟩

theorem claim_C10_witness :
    (∃ e, split_data [("Y", exY9)] (some [80, 20]) = .error e) ∧
    (∃ tr dv te, split_data [("Y", exY9)] none = .ok (tr, dv, te)) := by
  have h := claim_C10_split_ratio_raises [("Y", exY9)] (by decide)
  exact ⟨h.1 [80, 20], h.2⟩

theorem alLookup_mapVal {α β : Type} (f : α → β) (k : String) :
    ∀ d : List (String × α),
    alLookup k (d.map (fun kv => (kv.1, f kv.2))) = (alLookup k d).map f := by
  intro d
  induction d with
  | nil => rfl
  | cons kv d ih =>
    obtain ⟨k1, v1⟩ := kv
    simp only [List.map_cons, alLookup]
    by_cases hk : k1 = k
    · rw [if_pos hk, if_pos hk]
      rfl
    · rw [if_neg hk, if_neg hk]
      exact ih

theorem foldl_min_const :
    ∀ (l : List Nat) (n : Nat), (∀ x ∈ l, x = n) → l.foldl min n = n := by
  intro l
  induction l with
  | nil => intro n _; rfl
  | cons x l ih =>
    intro n h
    simp only [List.foldl_cons]
    rw [h x (List.mem_cons_self _ _), min_self]
    exact ih n (fun y hy => h y (List.mem_cons_of_mem _ hy))

theorem matWidth_slice (v : List (List Int)) (w a m : Nat)
    (hw : ∀ r ∈ v, r.length = w) (hm : 0 < m) (ha : a + m ≤ v.length) :
    matWidth ((v.drop a).take m) = w := by
  have hlen : ((v.drop a).take m).length = m := by
    simp only [List.length_take, List.length_drop]
    omega
  unfold matWidth
  cases hq : (v.drop a).take m with
  | nil =>
    rw [hq] at hlen
    simp at hlen
    omega
  | cons r rest2 =>
    have hrmem : r ∈ (v.drop a).take m := by
      rw [hq]
      exact List.mem_cons_self _ _
    have : r ∈ v := List.mem_of_mem_drop (List.mem_of_mem_take hrmem)
    simp only [List.headD_cons]
    exact hw r this

theorem RectData_slice (data : DataMap) (nsim a m : Nat)
    (hr : RectData data nsim) (ha : a + m ≤ nsim) :
    RectData (data.map (fun kv => (kv.1, (kv.2.drop a).take m))) m := by
  intro kv2 hkv2
  rw [List.mem_map] at hkv2
  obtain ⟨kv, hkv, heq⟩ := hkv2
  obtain ⟨hkl, hkw⟩ := hr kv hkv
  subst heq
  constructor
  · simp only [List.length_take, List.length_drop, hkl]
    omega
  · intro r hrr
    have hm : 0 < m := by
      by_contra hz
      have : m = 0 := by omega
      subst this
      simp at hrr
    have hrmem : r ∈ kv.2 :=
      List.mem_of_mem_drop (List.mem_of_mem_take hrr)
    rw [matWidth_slice kv.2 (matWidth kv.2) a m hkw hm (by omega)]
    exact hkw r hrmem

theorem split_data_none_eq (data : DataMap) (nsim : Nat)
    (hr : RectData data nsim) (hne : data ≠ []) :
    split_data data none = .ok
      (data.map (fun kv => (kv.1, (kv.2.drop 0).take (nsim / 3))),
       data.map (fun kv =>
         (kv.1, (kv.2.drop (nsim / 3)).take (nsim / 3))),
       data.map (fun kv =>
         (kv.1, (kv.2.drop (nsim / 3 * 2)).take (nsim - nsim / 3 * 2)))) := by
  have hsl1 : ∀ w : List (List Int),
      applySlice ⟨(0 : Int), ((nsim / 3 : Nat) : Int)⟩ w =
        (w.drop 0).take (nsim / 3) := by
    intro w
    unfold applySlice
    have e1 : ((nsim / 3 : Nat) : Int).toNat = nsim / 3 := by omega
    have e0 : ((0 : Int)).toNat = 0 := rfl
    rw [e1, e0, Nat.sub_zero]
  have hsl2 : ∀ w : List (List Int),
      applySlice ⟨((nsim / 3 : Nat) : Int), ((nsim / 3 : Nat) : Int) * 2⟩ w =
        (w.drop (nsim / 3)).take (nsim / 3) := by
    intro w
    unfold applySlice
    have e1 : ((nsim / 3 : Nat) : Int).toNat = nsim / 3 := by omega
    have e2 : (((nsim / 3 : Nat) : Int) * 2).toNat = nsim / 3 * 2 := by omega
    rw [e1, e2, (by omega : nsim / 3 * 2 - nsim / 3 = nsim / 3)]
  have hsl3 : ∀ w : List (List Int),
      applySlice ⟨((nsim / 3 : Nat) : Int) * 2, ((nsim : Nat) : Int)⟩ w =
        (w.drop (nsim / 3 * 2)).take (nsim - nsim / 3 * 2) := by
    intro w
    unfold applySlice
    have e2 : (((nsim / 3 : Nat) : Int) * 2).toNat = nsim / 3 * 2 := by omega
    have e3 : ((nsim : Nat) : Int).toNat = nsim := by omega
    rw [e2, e3]
  cases data with
  | nil => exact absurd rfl hne
  | cons kv rest =>
    obtain ⟨k0, v0⟩ := kv
    have hv0 : v0.length = nsim := (hr (k0, v0) (List.mem_cons_self _ _)).1
    have hmin :
        (rest.map (fun kv => kv.2.length)).foldl min v0.length = nsim := by
      rw [hv0]
      apply foldl_min_const
      intro x hx
      rw [List.mem_map] at hx
      obtain ⟨kv2, hkv2, hx2⟩ := hx
      rw [← hx2]
      exact (hr kv2 (List.mem_cons_of_mem _ hkv2)).1
    simp only [split_data, List.map_cons, hmin, Except.ok.injEq,
      Prod.mk.injEq]
    refine ⟨?_, ?_, ?_⟩
    · simp only [hsl1]
    · simp only [hsl2]
    · simp only [hsl3]

theorem sliceMat_catData_take (data : DataMap) (nsim : Nat) (k : String)
    (v : List (List Int)) (a b m : Nat)
    (hr : RectData data nsim)
    (hv : alLookup k data = some v)
    (hsl : alLookup k (mkVSlices data 0) = some (a, b)) :
    sliceMat (a, b) ((catData data nsim).take m) = v.take m := by
  have h := sliceMat_catData data nsim k v a b 0 m hr hv hsl
  simpa using h

theorem sliceMat_catData_drop (data : DataMap) (nsim : Nat) (k : String)
    (v : List (List Int)) (a b a0 : Nat)
    (hr : RectData data nsim)
    (hv : alLookup k data = some v)
    (hsl : alLookup k (mkVSlices data 0) = some (a, b)) :
    sliceMat (a, b) ((catData data nsim).drop a0) = v.drop a0 := by
  have hvlen : v.length = nsim := (hr (k, v) (alLookup_mem hv)).1
  have h := sliceMat_catData data nsim k v a b a0 (nsim - a0) hr hv hsl
  rw [List.take_of_length_le (by simp [catData_length]),
    List.take_of_length_le (by simp [hvlen])] at h
  exact h

theorem gfs_lookup (data : DataMap) (n : Nat) (mh : Bool)
    (ds : SeqDataset) (nsim : Nat) (k : String) (v : List (List Int))
    (hr : RectData data nsim) (hv : alLookup k data = some v)
    (h : mkSeqDataset data n mh = .ok ds) :
    alLookup (k ++ "p") ds.get_full_sequence = some (v.take (nsim - n)) ∧
    alLookup (k ++ "f") ds.get_full_sequence = some (v.drop n) := by
  have hne : data ≠ [] := by
    intro hd
    subst hd
    simp [alLookup] at hv
  obtain ⟨hvk, hvs, hfd, hns, hnsim, _, _, _⟩ :=
    mkSeqDataset_ok data n mh ds nsim hr hne h
  have hkmem : k ∈ ds.vkeys := by
    rw [hvk]
    exact List.mem_map_of_mem Prod.fst (alLookup_mem hv)
  obtain ⟨ab, hab⟩ := mkVSlices_isSome data 0 k (by rw [← hvk]; exact hkmem)
  obtain ⟨a, b⟩ := ab
  have hsl : ds.slOf k = (a, b) := by
    unfold SeqDataset.slOf
    rw [hvs, hab]
    rfl
  unfold SeqDataset.get_full_sequence
  constructor
  · rw [lookup_pftag_p ds.vkeys _ _ k hkmem, hsl, hfd, hns, hnsim]
    rw [sliceMat_catData_take data nsim k v a b _ hr hv hab]
  · rw [lookup_pftag_f ds.vkeys _ _ k hkmem, hsl, hfd, hns]
    rw [sliceMat_catData_drop data nsim k v a b _ hr hv hab]

/-- C5 corrected: in the split-then-window pipeline
(`split_data` with the default thirds, then one `SequenceDataset` per
split), each split's open-loop reconstruction `k + "p"` equals that
split's own series with its last nsteps rows dropped, so the
concatenation (train, dev, test) equals the original series with the
last nsteps rows of EACH split removed — three interior gaps — and not
the pre-split series truncated to the total usable length. -/
theorem claim_C5_split_reconstruction (data : DataMap) (nsim n : Nat)
    (mh : Bool) (k : String) (v : List (List Int)) (tr dv te : DataMap)
    (dstr dsdv dste : SeqDataset)
    (hr : RectData data nsim) (hv : alLookup k data = some v)
    (hs : split_data data none = .ok (tr, dv, te))
    (h1 : mkSeqDataset tr n mh = .ok dstr)
    (h2 : mkSeqDataset dv n mh = .ok dsdv)
    (h3 : mkSeqDataset te n mh = .ok dste) :
    ((alLookup (k ++ "p") dstr.get_full_sequence).getD []) ++
    ((alLookup (k ++ "p") dsdv.get_full_sequence).getD []) ++
    ((alLookup (k ++ "p") dste.get_full_sequence).getD []) =
      (v.take (nsim / 3 - n)) ++
      ((v.drop (nsim / 3)).take (nsim / 3 - n)) ++
      ((v.drop (nsim / 3 * 2)).take (nsim - nsim / 3 * 2 - n)) := by
  have hne : data ≠ [] := by
    intro hd
    subst hd
    simp [alLookup] at hv
  have hvlen : v.length = nsim := (hr (k, v) (alLookup_mem hv)).1
  rw [split_data_none_eq data nsim hr hne] at hs
  simp only [Except.ok.injEq, Prod.mk.injEq] at hs
  obtain ⟨htr, hdv, hte⟩ := hs
  subst htr
  subst hdv
  subst hte
  have h3s : nsim / 3 * 3 ≤ nsim := Nat.div_mul_le_self nsim 3
  have hrtr : RectData (data.map (fun kv =>
      (kv.1, (kv.2.drop 0).take (nsim / 3)))) (nsim / 3) :=
    RectData_slice data nsim 0 (nsim / 3) hr (by omega)
  have hrdv : RectData (data.map (fun kv =>
      (kv.1, (kv.2.drop (nsim / 3)).take (nsim / 3)))) (nsim / 3) :=
    RectData_slice data nsim (nsim / 3) (nsim / 3) hr (by omega)
  have hrte : RectData (data.map (fun kv =>
      (kv.1, (kv.2.drop (nsim / 3 * 2)).take (nsim - nsim / 3 * 2))))
      (nsim - nsim / 3 * 2) :=
    RectData_slice data nsim (nsim / 3 * 2) (nsim - nsim / 3 * 2) hr
      (by omega)
  have hvtr : alLookup k (data.map (fun kv =>
      (kv.1, (kv.2.drop 0).take (nsim / 3)))) =
      some ((v.drop 0).take (nsim / 3)) := by
    rw [alLookup_mapVal (fun w => (w.drop 0).take (nsim / 3)) k data, hv]
    rfl
  have hvdv : alLookup k (data.map (fun kv =>
      (kv.1, (kv.2.drop (nsim / 3)).take (nsim / 3)))) =
      some ((v.drop (nsim / 3)).take (nsim / 3)) := by
    rw [alLookup_mapVal (fun w => (w.drop (nsim / 3)).take (nsim / 3)) k data,
      hv]
    rfl
  have hvte : alLookup k (data.map (fun kv =>
      (kv.1, (kv.2.drop (nsim / 3 * 2)).take (nsim - nsim / 3 * 2)))) =
      some ((v.drop (nsim / 3 * 2)).take (nsim - nsim / 3 * 2)) := by
    rw [alLookup_mapVal
      (fun w => (w.drop (nsim / 3 * 2)).take (nsim - nsim / 3 * 2)) k data,
      hv]
    rfl
  have g1 := (gfs_lookup _ n mh dstr (nsim / 3) k _ hrtr hvtr h1).1
  have g2 := (gfs_lookup _ n mh dsdv (nsim / 3) k _ hrdv hvdv h2).1
  have g3 := (gfs_lookup _ n mh dste (nsim - nsim / 3 * 2) k _ hrte hvte h3).1
  rw [g1, g2, g3]
  simp only [Option.getD_some, List.drop_zero, List.take_take]
  rw [min_eq_left (by omega : nsim / 3 - n ≤ nsim / 3),
    min_eq_left (by omega : nsim - nsim / 3 * 2 - n ≤ nsim - nsim / 3 * 2)]

theorem claim_C5_counterexample :
    (match split_data [("Y", exY9)] none with
     | .ok (tr, dv, te) =>
       match mkSeqDataset tr 1 false, mkSeqDataset dv 1 false,
           mkSeqDataset te 1 false with
       | .ok a2, .ok b2, .ok c2 =>
         some (((alLookup "Yp" a2.get_full_sequence).getD []) ++
           ((alLookup "Yp" b2.get_full_sequence).getD []) ++
           ((alLookup "Yp" c2.get_full_sequence).getD []))
       | _, _, _ => none
     | .error _ => none) = some [[0], [1], [3], [4], [6], [7]] ∧
    [[0], [1], [3], [4], [6], [7]] ≠ exY9.take 6 := by
  constructor
  · rfl
  · decide

theorem claim_C5_witness :
    ((alLookup ("Y" ++ "p") exDsTr9.get_full_sequence).getD []) ++
    ((alLookup ("Y" ++ "p") exDsDv9.get_full_sequence).getD []) ++
    ((alLookup ("Y" ++ "p") exDsTe9.get_full_sequence).getD []) =
      (exY9.take (9 / 3 - 1)) ++
      ((exY9.drop (9 / 3)).take (9 / 3 - 1)) ++
      ((exY9.drop (9 / 3 * 2)).take (9 - 9 / 3 * 2 - 1)) := by
  exact claim_C5_split_reconstruction [("Y", exY9)] 9 1 false "Y" exY9
    exTr9 exDv9 exTe9 exDsTr9 exDsDv9 exDsTe9
    (by unfold RectData matWidth exY9; decide) (by rfl) (by rfl) (by rfl)
    (by rfl) (by rfl)

theorem foldl_min_le : ∀ (l : List ℚ) (a : ℚ), l.foldl min a ≤ a := by
  intro l
  induction l with
  | nil => intro a; exact le_refl a
  | cons x l ih =>
    intro a
    simp only [List.foldl_cons]
    exact le_trans (ih (min a x)) (min_le_left a x)

theorem foldl_min_le_mem :
    ∀ (l : List ℚ) (a x : ℚ), x ∈ l → l.foldl min a ≤ x := by
  intro l
  induction l with
  | nil => intro a x hx; simp at hx
  | cons y l ih =>
    intro a x hx
    rcases List.mem_cons.mp hx with h | h
    · subst h
      simp only [List.foldl_cons]
      exact le_trans (foldl_min_le l (min a x)) (min_le_right a x)
    · simp only [List.foldl_cons]
      exact ih (min a y) x h

theorem colMin_le {m : List ℚ} {x : ℚ} (h : x ∈ m) : colMin m ≤ x := by
  cases m with
  | nil => simp at h
  | cons y l =>
    unfold colMin
    rcases List.mem_cons.mp h with h2 | h2
    · subst h2
      exact foldl_min_le l x
    · exact foldl_min_le_mem l y x h2

theorem foldl_max_ge : ∀ (l : List ℚ) (a : ℚ), a ≤ l.foldl max a := by
  intro l
  induction l with
  | nil => intro a; exact le_refl a
  | cons x l ih =>
    intro a
    simp only [List.foldl_cons]
    exact le_trans (le_max_left a x) (ih (max a x))

theorem foldl_max_ge_mem :
    ∀ (l : List ℚ) (a x : ℚ), x ∈ l → x ≤ l.foldl max a := by
  intro l
  induction l with
  | nil => intro a x hx; simp at hx
  | cons y l ih =>
    intro a x hx
    rcases List.mem_cons.mp hx with h | h
    · subst h
      simp only [List.foldl_cons]
      exact le_trans (le_max_right a x) (foldl_max_ge l (max a x))
    · simp only [List.foldl_cons]
      exact ih (max a y) x h

theorem le_colMax {m : List ℚ} {x : ℚ} (h : x ∈ m) : x ≤ colMax m := by
  cases m with
  | nil => simp at h
  | cons y l =>
    unfold colMax
    rcases List.mem_cons.mp h with h2 | h2
    · subst h2
      exact foldl_max_ge l x
    · exact foldl_max_ge_mem l y x h2

theorem foldl_min_const_q :
    ∀ (l : List ℚ) (a : ℚ), (∀ x ∈ l, x = a) → l.foldl min a = a := by
  intro l
  induction l with
  | nil => intro a _; rfl
  | cons x l ih =>
    intro a h
    simp only [List.foldl_cons]
    rw [h x (List.mem_cons_self _ _), min_self]
    exact ih a (fun y hy => h y (List.mem_cons_of_mem _ hy))

theorem colMin_const {m : List ℚ} {q : ℚ} (hm : m ≠ [])
    (hc : ∀ x ∈ m, x = q) : colMin m = q := by
  cases m with
  | nil => exact absurd rfl hm
  | cons y l =>
    unfold colMin
    rw [hc y (List.mem_cons_self _ _)]
    exact foldl_min_const_q l q
      (fun x hx => hc x (List.mem_cons_of_mem _ hx))

theorem denorm_norm_col (m : List ℚ) :
    min_max_denorm (normalizeCol m).1 (normalizeCol m).2.1
      (normalizeCol m).2.2 = m := by
  unfold normalizeCol min_max_denorm
  rw [List.map_map]
  have hpt : ∀ x ∈ m, ((x - colMin m) / (colMax m - colMin m)) *
      (colMax m - colMin m) + colMin m = x := by
    intro x hx
    by_cases hq : colMax m = colMin m
    · have hx1 : colMin m ≤ x := colMin_le hx
      have hx2 : x ≤ colMax m := le_colMax hx
      rw [hq] at hx2
      have hx3 : x = colMin m := le_antisymm hx2 hx1
      rw [hq]
      simp [hx3]
    · rw [div_mul_cancel₀ _ (sub_ne_zero_of_ne hq)]
      ring
  calc m.map ((fun x => x * (colMax m - colMin m) + colMin m) ∘
        (fun x => (x - colMin m) / (colMax m - colMin m)))
      = m.map id :=
        List.map_congr_left
          (fun x hx => by simpa [Function.comp] using hpt x hx)
    _ = m := List.map_id m

theorem norm_const_col (c : List ℚ) (q : ℚ) (hc : ∀ x ∈ c, x = q) :
    (normalizeCol c).1 = c.map (fun _ => (0 : ℚ)) := by
  unfold normalizeCol
  apply List.map_congr_left
  intro x hx
  have hmn : colMin c = q := colMin_const (List.ne_nil_of_mem hx) hc
  rw [hc x hx, hmn]
  simp

/-- C8: denormalizing the min-max normalization of a finite 2-D array
(list of its nonempty columns, exact rational arithmetic standing for
floats, so "within floating tolerance" is exact equality) reconstructs
the array, and a zero-range (constant) column normalizes to all zeros —
the 0/0 that arises is neutralized by `np.nan_to_num` (modelled by total
division), and no Inf/NaN survives. -/
theorem claim_C8_minmax_roundtrip (cols : List (List ℚ))
    (_hcols : ∀ c ∈ cols, c ≠ []) :
    denormMat (normalizeMat cols) = cols ∧
    (∀ c ∈ cols, ∀ q : ℚ, (∀ x ∈ c, x = q) →
      (normalizeCol c).1 = c.map (fun _ => (0 : ℚ))) := by
  constructor
  · unfold denormMat normalizeMat
    rw [List.map_map]
    calc cols.map ((fun c => min_max_denorm c.1 c.2.1 c.2.2) ∘ normalizeCol)
        = cols.map id :=
          List.map_congr_left (fun c hc => by
            simpa [Function.comp] using denorm_norm_col c)
      _ = cols := List.map_id cols
  · intro c _ q hq
    exact norm_const_col c q hq

theorem claim_C8_witness :
    denormMat (normalizeMat [[1, 3], [5, 5]]) = [[1, 3], [5, 5]] ∧
    (∀ c ∈ [[(1 : ℚ), 3], [5, 5]], ∀ q : ℚ, (∀ x ∈ c, x = q) →
      (normalizeCol c).1 = c.map (fun _ => (0 : ℚ))) :=
  claim_C8_minmax_roundtrip [[1, 3], [5, 5]] (by decide)
